import Mathlib

/-!
Verification of the mindmap document-tree transformation pipeline.

This file gives a shallow embedding of the algorithmic core of the backend:

- `split_tree_into_chunks` (backend/llm/fallback_llm.py): token-budget chunk
  splitting of a tree's root-level children.
- `clean_toc_tree` (backend/llm/llm_transform.py): recursive section cleaning.
- `collapse_root_unary_nodes` (backend/main.py): root unary-chain collapsing.
- `ensure_child` / `nodes_to_toc_tree` (backend/parser/parser.py): TOC tree
  building from heading-tagged blocks.
- the token-error retry policy of `transform_toc_tree_to_api_format`
  (backend/llm/llm_transform.py).

Python strings are modelled as `List Char` wherever character-level
operations (strip, slicing, counting, lowercasing) matter, so that all
definitions compute by kernel reduction.  The external tokenizer
(`count_tokens_in_json` via tiktoken) is modelled as an abstract cost
function: a `cost : α → Nat` for the opaque child subtrees and a `base : Nat`
for the token count of the chunk's root-level fields (title/page/sections),
which the code recomputes identically for every freshly opened chunk.
-/

/-- Python `str.strip()`: drop leading and trailing whitespace. -/
def pyStrip (s : List Char) : List Char :=
  ((s.dropWhile Char.isWhitespace).reverse.dropWhile Char.isWhitespace).reverse

theorem pyStrip_length_le (s : List Char) : (pyStrip s).length ≤ s.length := by
  unfold pyStrip
  have h1 := (List.dropWhile_suffix (l := s) (p := Char.isWhitespace)).sublist.length_le
  have h2 := (List.dropWhile_suffix (l := (s.dropWhile Char.isWhitespace).reverse)
    (p := Char.isWhitespace)).sublist.length_le
  simp at *
  omega

/-- Python `s.lower()` (ASCII case folding, which is all the matched patterns use). -/
def lowerChars (s : List Char) : List Char :=
  s.map Char.toLower

/-!
## ChunkSplitter: `split_tree_into_chunks` (backend/llm/fallback_llm.py, lines 34-74)

The tree passed to the splitter is a dict with `title`, optional `page` and
`sections`, and a `children` list; each chunk is a dict of the same shape
carrying a subset of the children.  The children are never inspected by the
splitter, so they are an opaque type `α`; the values of the optional `page`
and `sections` fields are likewise opaque (`β`, `γ`).
-/

structure FallbackTree (α β γ : Type) where
  title : String
  page : Option β
  sections : Option γ
  children : List α
deriving DecidableEq

/-- The child-grouping loop of `split_tree_into_chunks`.  `cur` is the
`children` list of the open chunk, `tok` the running `current_tokens`.
A chunk is closed when `current_tokens + child_tokens > chunk_size` and the
open chunk already has at least one child; the child is then always appended
to the (possibly fresh) open chunk whose token count restarts at
`base + cost c`.  After the loop the final chunk is kept only if nonempty. -/
def splitChunksGo {α : Type} (budget : Nat) (cost : α → Nat) (base : Nat) :
    List α → List α → Nat → List (List α)
  | [], cur, _ => if cur.isEmpty then [] else [cur]
  | c :: rest, cur, tok =>
    if budget < tok + cost c ∧ ¬ cur.isEmpty then
      cur :: splitChunksGo budget cost base rest [c] (base + cost c)
    else
      splitChunksGo budget cost base rest (cur ++ [c]) (tok + cost c)

/-- `split_tree_into_chunks(tree, chunk_size)`: every chunk copies the tree's
root-level fields (`title`, and `page`/`sections` when present) and takes a
consecutive group of the root children.  `base` is the token count of the
chunk dict without its `children` (computed the same way for every chunk),
`cost` the token count of one child. -/
def split_tree_into_chunks {α β γ : Type} (cost : α → Nat) (base budget : Nat)
    (tree : FallbackTree α β γ) : List (FallbackTree α β γ) :=
  (splitChunksGo budget cost base tree.children [] base).map
    (fun cs => ⟨tree.title, tree.page, tree.sections, cs⟩)

theorem splitChunksGo_flatten {α : Type} (budget : Nat) (cost : α → Nat) (base : Nat) :
    ∀ (l cur : List α) (tok : Nat),
      (splitChunksGo budget cost base l cur tok).flatten = cur ++ l := by
  intro l
  induction l with
  | nil =>
    intro cur tok
    cases cur <;> simp [splitChunksGo]
  | cons c rest ih =>
    intro cur tok
    by_cases h : budget < tok + cost c ∧ ¬ cur.isEmpty
    · rw [splitChunksGo, if_pos h]
      simp [ih]
    · rw [splitChunksGo, if_neg h]
      simp [ih]

theorem splitChunksGo_chunk_props {α : Type} (budget : Nat) (cost : α → Nat) (base : Nat) :
    ∀ (l cur : List α),
      (2 ≤ cur.length → base + (cur.map cost).sum ≤ budget) →
      (∀ c ∈ cur, budget < cost c → cur = [c]) →
      ∀ ch ∈ splitChunksGo budget cost base l cur (base + (cur.map cost).sum),
        ch ≠ [] ∧ (2 ≤ ch.length → base + (ch.map cost).sum ≤ budget) ∧
          (∀ c ∈ ch, budget < cost c → ch = [c]) := by
  intro l
  induction l with
  | nil =>
    intro cur hbound hov ch hch
    cases cur with
    | nil => simp [splitChunksGo] at hch
    | cons a b =>
      simp only [splitChunksGo, List.isEmpty_cons, if_false, List.mem_singleton,
        Bool.false_eq_true] at hch
      subst hch
      exact ⟨by simp, hbound, hov⟩
  | cons c rest ih =>
    intro cur hbound hov ch hch
    rw [splitChunksGo] at hch
    by_cases h : budget < base + (cur.map cost).sum + cost c ∧ ¬ cur.isEmpty
    · rw [if_pos h] at hch
      rcases List.mem_cons.mp hch with hc | hc
      · subst hc
        exact ⟨by simpa [List.isEmpty_iff] using h.2, hbound, hov⟩
      · have hc2 : ch ∈ splitChunksGo budget cost base rest [c] (base + ([c].map cost).sum) := by
          simpa using hc
        refine ih [c] (by simp) ?_ ch hc2
        intro x hx hbx
        simp at hx
        subst hx; rfl
    · rw [if_neg h] at hch
      have hne : ¬ cur.isEmpty → base + (cur.map cost).sum + cost c ≤ budget := by
        intro hcur
        rcases not_and_or.mp h with h1 | h1
        · omega
        · exact absurd hcur h1
      have hc2 : ch ∈ splitChunksGo budget cost base rest (cur ++ [c])
          (base + ((cur ++ [c]).map cost).sum) := by
        simpa [Nat.add_assoc] using hch
      refine ih (cur ++ [c]) ?_ ?_ ch hc2
      · intro hlen
        have hcur : ¬ cur.isEmpty := by
          cases cur with
          | nil => simp at hlen
          | cons a b => simp
        have := hne hcur
        simp
        omega
      · intro x hx hbx
        rcases List.mem_append.mp hx with hx1 | hx1
        · -- an oversized child already in `cur` forces `cur = [x]`, whose token
          -- count alone is above budget, so the chunk would have been closed
          have hcx := hov x hx1 hbx
          subst hcx
          have hcur : ¬ (x :: ([] : List α)).isEmpty := by simp
          have := hne (by simpa using hcur)
          simp at this
          omega
        · simp at hx1
          subst hx1
          cases cur with
          | nil => rfl
          | cons a b =>
            have := hne (by simp)
            omega

/-- C1: for every input tree and every chunk budget > 0 (and in fact for every
budget and every token-cost assignment), concatenating in order the `children`
lists of the chunks returned by `split_tree_into_chunks` yields exactly the
tree's original `children` sequence: no loss, no reordering, no duplication. -/
theorem chunk_reconstruction {α β γ : Type} (cost : α → Nat) (base budget : Nat)
    (tree : FallbackTree α β γ) (hb : 0 < budget) :
    ((split_tree_into_chunks cost base budget tree).map FallbackTree.children).flatten
      = tree.children := by
  unfold split_tree_into_chunks
  rw [List.map_map]
  have : (FallbackTree.children ∘ fun cs =>
      (⟨tree.title, tree.page, tree.sections, cs⟩ : FallbackTree α β γ)) = id := by
    funext cs; rfl
  rw [this, List.map_id]
  exact splitChunksGo_flatten budget cost base tree.children [] base

theorem chunk_reconstruction_witness :
    0 < 5 ∧ ((split_tree_into_chunks (fun c => c) 2 5
        (⟨"t", none, none, [4, 3, 9]⟩ : FallbackTree Nat Unit Unit)).map
        FallbackTree.children).flatten = [4, 3, 9] :=
  ⟨by decide, chunk_reconstruction (fun c => c) 2 5 ⟨"t", none, none, [4, 3, 9]⟩ (by decide)⟩

/-- C5 counterexample: with child costs 1 and 1, a chunk budget of 5 and a
base (root-metadata) token cost of 10, every chunk consists of one child that
is not itself oversized (cost 1 ≤ 5), yet the first chunk's total token cost
is 10 + 1 = 11, which exceeds budget + last-child-cost = 5 + 1.  So the claim
"every chunk except a single-oversized-child chunk exceeds the budget by at
most the token cost of its last-added child" is false as stated. -/
theorem chunk_soft_bound_cex :
    ∃ ch ∈ split_tree_into_chunks (fun c => c) 10 5
        (⟨"", none, none, [1, 1]⟩ : FallbackTree Nat Unit Unit),
      (∀ c ∈ ch.children, c ≤ 5) ∧
        ∃ c, ch.children.getLast? = some c ∧
          5 + c < 10 + (ch.children.map (fun x => x)).sum := by
  decide

/-- C5 (amended): a chunk is closed only before adding a child, never
retroactively, so (i) every emitted chunk is nonempty, (ii) a child whose own
cost exceeds the budget is never split further and always sits alone in its
chunk, and (iii) provided the chunk base cost (root fields without children)
is within budget, each chunk's total token cost exceeds the budget by at most
the cost of its last-added child. -/
theorem chunk_budget_soft_bound {α β γ : Type} (cost : α → Nat) (base budget : Nat)
    (tree : FallbackTree α β γ) :
    ∀ ch ∈ split_tree_into_chunks cost base budget tree,
      ch.children ≠ [] ∧
        (∀ c ∈ ch.children, budget < cost c → ch.children = [c]) ∧
        (base ≤ budget → ∀ c, ch.children.getLast? = some c →
          base + (ch.children.map cost).sum ≤ budget + cost c) := by
  intro ch hch
  unfold split_tree_into_chunks at hch
  rcases List.mem_map.mp hch with ⟨cs, hcs, hmk⟩
  have hcs2 : cs ∈ splitChunksGo budget cost base tree.children []
      (base + (([] : List α).map cost).sum) := by simpa using hcs
  have hprops := splitChunksGo_chunk_props budget cost base tree.children []
    (by simp) (by simp) cs hcs2
  have hchildren : ch.children = cs := by rw [← hmk]
  rw [hchildren]
  refine ⟨hprops.1, hprops.2.2, ?_⟩
  intro hbase c hlast
  cases cs with
  | nil => simp at hlast
  | cons c0 cs0 =>
    cases cs0 with
    | nil =>
      simp at hlast
      subst hlast
      simpa using hbase
    | cons c1 cs1 =>
      have hlen : 2 ≤ (c0 :: c1 :: cs1).length := by simp
      have := hprops.2.1 hlen
      omega

theorem chunk_budget_soft_bound_witness :
    (⟨"t", none, none, [3]⟩ : FallbackTree Nat Unit Unit) ∈
      split_tree_into_chunks (fun c => c) 2 5 ⟨"t", none, none, [4, 3, 9]⟩ ∧
    (2 : Nat) ≤ 5 ∧ ([3] : List Nat).getLast? = some 3 ∧
    2 + (([3] : List Nat).map (fun c => c)).sum ≤ 5 + 3 :=
  ⟨by decide, by decide, by decide,
    (chunk_budget_soft_bound (fun c => c) 2 5
      (⟨"t", none, none, [4, 3, 9]⟩ : FallbackTree Nat Unit Unit)
      (⟨"t", none, none, [3]⟩ : FallbackTree Nat Unit Unit) (by decide)).2.2
      (by decide) 3 (by decide)⟩

/-!
## TreeCleaner: `clean_toc_tree` (backend/llm/llm_transform.py, lines 109-154)

A TOC node is a dict with a `title`, an optional `sections` list of records
`{node_id, heading_level, section_text}`, and an optional `children` list.
The cleaner treats a missing `sections`/`children` key and an empty list the
same way (both skip the corresponding loop and produce no key/an unchanged
key), so the embedding uses a plain list for the input's `sections` and
`children`.  The *output* `sections` key is kept only when at least one entry
survives, which is observable, so the output type keeps it as an `Option`.

A section record's `section_text` value may be absent (the code then skips
the record via the `"section_text" in section` guard) or may hold a
non-string value, on which the code's `.strip()` call raises; `TextVal`
models that distinction and `clean_toc_tree` returns `none` exactly when the
Python code raises.
-/

inductive TextVal where
  | str (s : List Char)
  | nonStr
deriving DecidableEq

structure TocSection where
  heading_level : Option Int
  node_id : Option String
  section_text : Option TextVal
deriving DecidableEq

mutual
inductive TocNode where
  | mk (title : String) (sections : List TocSection) (children : TocForest)
inductive TocForest where
  | nil
  | cons (c : TocNode) (rest : TocForest)
end

mutual
inductive CleanNode where
  | mk (title : String) (sections : Option (List (List Char))) (children : CleanForest)
inductive CleanForest where
  | nil
  | cons (c : CleanNode) (rest : CleanForest)
end

def CleanNode.sectionsOf : CleanNode → Option (List (List Char))
  | CleanNode.mk _ s _ => s

/-- Count of `'.'` and `'…'` characters (table-of-contents artifact test). -/
def dotCountChars (s : List Char) : Nat :=
  s.count '.' + s.count '…'

/-- The per-entry body of the cleaning loop: strip the text; skip it when
shorter than 10 characters; skip it when more than 50% of its characters are
dots/ellipses (`dot_count > len * 0.5`, i.e. `len < 2 * dot_count`); truncate
to `max_section_text_length` characters plus a `"..."` marker when longer. -/
def cleanSectionText (maxLen : Nat) (s : List Char) : Option (List Char) :=
  let t := pyStrip s
  if t.length < 10 then none
  else if t.length < 2 * dotCountChars t then none
  else if maxLen < t.length then some (t.take maxLen ++ "...".toList)
  else some t

/-- The `for section in cleaned["sections"]` loop: records without a
`section_text` key are skipped; a non-string `section_text` raises
(modelled as `none`); surviving texts are collected in order as bare
strings. -/
def cleanSections (maxLen : Nat) : List TocSection → Option (List (List Char))
  | [] => some []
  | sec :: rest =>
    match sec.section_text with
    | none => cleanSections maxLen rest
    | some TextVal.nonStr => none
    | some (TextVal.str s) =>
      match cleanSectionText maxLen s with
      | none => cleanSections maxLen rest
      | some out => (cleanSections maxLen rest).map (fun l => out :: l)

mutual
/-- `clean_toc_tree(node, max_section_text_length)`: clean the sections (the
`sections` key survives only when some entry does), then recursively clean
the children.  `none` models a raised exception. -/
def clean_toc_tree (maxLen : Nat) : TocNode → Option CleanNode
  | TocNode.mk t secs cs =>
    match cleanSections maxLen secs with
    | none => none
    | some outs =>
      match cleanForest maxLen cs with
      | none => none
      | some cs2 => some (CleanNode.mk t (if outs.isEmpty then none else some outs) cs2)
def cleanForest (maxLen : Nat) : TocForest → Option CleanForest
  | TocForest.nil => some CleanForest.nil
  | TocForest.cons c rest =>
    match clean_toc_tree maxLen c with
    | none => none
    | some c2 =>
      match cleanForest maxLen rest with
      | none => none
      | some r2 => some (CleanForest.cons c2 r2)
end

/-- A section record is harmless for the cleaner when its `section_text`
value, if present, is a string. -/
def wfSection (sec : TocSection) : Bool :=
  match sec.section_text with
  | some TextVal.nonStr => false
  | _ => true

mutual
def wfNode : TocNode → Bool
  | TocNode.mk _ secs cs => secs.all wfSection && wfForest cs
def wfForest : TocForest → Bool
  | TocForest.nil => true
  | TocForest.cons c rest => wfNode c && wfForest rest
end

theorem cleanSections_total (maxLen : Nat) :
    ∀ secs : List TocSection, secs.all wfSection = true →
      (cleanSections maxLen secs).isSome = true := by
  intro secs
  induction secs with
  | nil => intro _; rfl
  | cons sec rest ih =>
    intro h
    rw [List.all_cons, Bool.and_eq_true] at h
    have hrest := ih h.2
    rw [cleanSections]
    cases hst : sec.section_text with
    | none => simpa using hrest
    | some v =>
      cases v with
      | nonStr => simp [wfSection, hst] at h
      | str s =>
        cases hct : cleanSectionText maxLen s with
        | none => simpa [hct] using hrest
        | some out => simpa [hct, Option.isSome_map] using hrest

/-- A node whose `section_text` value is not a string: the code's
`section["section_text"].strip()` raises `AttributeError` on it. -/
def badSectionNode : TocNode :=
  TocNode.mk "t" [⟨none, none, some TextVal.nonStr⟩] TocForest.nil

/-- C10 counterexample: `clean_toc_tree` does have a failure mode.  On a node
whose single section entry carries a non-string `section_text`, the code
raises (modelled by `none`) instead of defaulting the malformed field to
empty. -/
theorem clean_no_failure_cex : clean_toc_tree 3000 badSectionNode = none := rfl

/-- C10 (amended): `clean_toc_tree` returns a cleaned node without raising on
every input whose `section_text` values (where present) are strings; absent
`sections`/`children` keys and section records missing the `section_text` key
are tolerated and default to empty/dropped.  A non-string `section_text`
raises. -/
theorem clean_no_failure (maxLen : Nat) (n : TocNode) (h : wfNode n = true) :
    (clean_toc_tree maxLen n).isSome = true := by
  revert h
  induction n using TocNode.rec
    (motive_2 := fun f => wfForest f = true → (cleanForest maxLen f).isSome = true) with
  | mk t secs cs ihf =>
    intro h
    rw [wfNode, Bool.and_eq_true] at h
    have hs := cleanSections_total maxLen secs h.1
    have hf := ihf h.2
    rw [clean_toc_tree]
    cases hs2 : cleanSections maxLen secs with
    | none => rw [hs2] at hs; exact absurd hs (by simp)
    | some outs =>
      cases hf2 : cleanForest maxLen cs with
      | none => rw [hf2] at hf; exact absurd hf (by simp)
      | some cs2 => simp
  | nil => rfl
  | cons c rest ihc ihr =>
    rename_i h
    rw [wfForest, Bool.and_eq_true] at h
    have hc := ihc h.1
    have hr := ihr h.2
    rw [cleanForest]
    cases hc2 : clean_toc_tree maxLen c with
    | none => rw [hc2] at hc; exact absurd hc (by simp)
    | some c2 =>
      cases hr2 : cleanForest maxLen rest with
      | none => rw [hr2] at hr; exact absurd hr (by simp)
      | some r2 => simp

theorem clean_no_failure_witness :
    wfNode (TocNode.mk "t" [⟨none, some "id", some (TextVal.str "some body text".toList)⟩,
        ⟨some 2, none, none⟩] TocForest.nil) = true ∧
    (clean_toc_tree 3000 (TocNode.mk "t" [⟨none, some "id", some (TextVal.str "some body text".toList)⟩,
        ⟨some 2, none, none⟩] TocForest.nil)).isSome = true :=
  ⟨by decide, clean_no_failure 3000 _ (by decide)⟩

/-- An eleven-character section text, one character over a configured
max length of 10. -/
def elevenChars : List Char := "abcdefghijk".toList

/-- C2 counterexample: with `max_section_text_length = 10`, an 11-character
section entry is truncated to 10 characters plus the 3-character `"..."`
marker, emitting a 13-character string: the cleaner *increased* that
section's character count, so "never increases" is false as stated. -/
theorem cleaner_monotonicity_cex :
    (clean_toc_tree 10 (TocNode.mk "t" [⟨none, none, some (TextVal.str elevenChars)⟩]
        TocForest.nil)).map CleanNode.sectionsOf
      = some (some ["abcdefghij...".toList]) ∧
    elevenChars.length < "abcdefghij...".toList.length := by
  decide

/-- C2 (amended): an emitted section string is never more than 2 characters
longer than the `section_text` it was derived from (the excess happens only
when the stripped text is longer than `max_len` by one or two characters, in
which case the output is exactly `max_len + 3` characters); consequently a
node's total emitted text volume exceeds the total input text volume by at
most 2 characters per input section entry. -/
theorem cleaner_monotonicity :
    (∀ (maxLen : Nat) (s out : List Char), cleanSectionText maxLen s = some out →
      out.length ≤ s.length + 2 ∧ (s.length < out.length → out.length = maxLen + 3)) ∧
    (∀ (maxLen : Nat) (secs : List TocSection) (outs : List (List Char)),
      cleanSections maxLen secs = some outs →
      (outs.map List.length).sum ≤
        (secs.map (fun sec =>
          match sec.section_text with
          | some (TextVal.str s) => s.length + 2
          | _ => 0)).sum) := by
  have hentry : ∀ (maxLen : Nat) (s out : List Char), cleanSectionText maxLen s = some out →
      out.length ≤ s.length + 2 ∧ (s.length < out.length → out.length = maxLen + 3) := by
    intro maxLen s out h
    have hst := pyStrip_length_le s
    rw [cleanSectionText] at h
    split_ifs at h with h1 h2 h3
    · rw [Option.some_inj] at h
      subst h
      constructor
      · simp
        omega
      · intro _
        simp
        omega
    · rw [Option.some_inj] at h
      subst h
      constructor
      · omega
      · intro hlt
        omega
  refine ⟨hentry, ?_⟩
  intro maxLen secs
  induction secs with
  | nil =>
    intro outs h
    rw [cleanSections, Option.some_inj] at h
    subst h
    simp
  | cons sec rest ih =>
    intro outs h
    rw [cleanSections] at h
    split at h
    next hst =>
      have := ih outs h
      simp only [List.map_cons, List.sum_cons, hst]
      omega
    next hst => exact absurd h (by simp)
    next s hst =>
      split at h
      next hct =>
        have := ih outs h
        simp only [List.map_cons, List.sum_cons, hst]
        have hsl := pyStrip_length_le s
        omega
      next out hct =>
        cases hcr : cleanSections maxLen rest with
        | none => rw [hcr] at h; exact absurd h (by simp)
        | some l =>
          rw [hcr] at h
          simp at h
          subst h
          have hrec := ih l hcr
          have hout := (hentry maxLen s out hct).1
          simp only [List.map_cons, List.sum_cons, hst]
          omega

theorem cleaner_monotonicity_witness :
    cleanSectionText 3000 "a section long enough".toList
        = some "a section long enough".toList ∧
    "a section long enough".toList.length ≤ "a section long enough".toList.length + 2 :=
  ⟨by decide,
    (cleaner_monotonicity.1 3000 "a section long enough".toList
      "a section long enough".toList (by decide)).1⟩

/-- C6: per section entry the cleaner (1) strips whitespace, (2) drops the
entry when the stripped length is < 10, (3) drops it when more than 50% of
its characters are `'.'`/`'…'`, (4) truncates entries over the configured max
length to `max_len` characters plus a `"..."` marker, (5) emits the survivor
as a bare string; a node with zero surviving entries has no `sections` key in
its output.  In particular 20 dots are dropped, an entry of exactly 9
characters is dropped and an entry of exactly 10 non-dot characters is kept
verbatim. -/
theorem clean_rules_in_order :
    (∀ (maxLen : Nat) (s : List Char), cleanSectionText maxLen s = none ↔
      ((pyStrip s).length < 10 ∨ (pyStrip s).length < 2 * dotCountChars (pyStrip s))) ∧
    (∀ (maxLen : Nat) (s out : List Char), cleanSectionText maxLen s = some out →
      out = if maxLen < (pyStrip s).length then (pyStrip s).take maxLen ++ "...".toList
        else pyStrip s) ∧
    cleanSectionText 3000 (List.replicate 20 '.') = none ∧
    cleanSectionText 3000 "abcdefghi".toList = none ∧
    cleanSectionText 3000 "abcdefghij".toList = some "abcdefghij".toList ∧
    (∀ (maxLen : Nat) (t : String) (secs : List TocSection) (cs : TocForest),
      cleanSections maxLen secs = some [] →
      clean_toc_tree maxLen (TocNode.mk t secs cs)
        = (cleanForest maxLen cs).map (fun f => CleanNode.mk t none f)) := by
  refine ⟨?_, ?_, by decide, by decide, by decide, ?_⟩
  · intro maxLen s
    rw [cleanSectionText]
    split_ifs with h1 h2 h3 <;> simp [*]
  · intro maxLen s out h
    rw [cleanSectionText] at h
    split_ifs at h with h1 h2 h3
    · rw [Option.some_inj] at h
      rw [if_pos h3, ← h]
    · rw [Option.some_inj] at h
      rw [if_neg h3, ← h]
  · intro maxLen t secs cs h
    rw [clean_toc_tree, h]
    cases hf : cleanForest maxLen cs <;> simp

theorem clean_rules_in_order_witness :
    (cleanSectionText 2 "a (short) section".toList = some "a (short) section".toList →
      "a (short) section".toList
        = if 2 < (pyStrip "a (short) section".toList).length
          then (pyStrip "a (short) section".toList).take 2 ++ "...".toList
          else pyStrip "a (short) section".toList) ∧
    (cleanSections 3000 [⟨none, none, some (TextVal.str "short".toList)⟩] = some [] ∧
      clean_toc_tree 3000 (TocNode.mk "t" [⟨none, none, some (TextVal.str "short".toList)⟩]
          TocForest.nil)
        = (cleanForest 3000 TocForest.nil).map (fun f => CleanNode.mk "t" none f)) :=
  ⟨clean_rules_in_order.2.1 2 "a (short) section".toList "a (short) section".toList,
    by decide,
    clean_rules_in_order.2.2.2.2.2 3000 "t" [⟨none, none, some (TextVal.str "short".toList)⟩]
      TocForest.nil (by decide)⟩

/-!
## TreeNormalizer: `collapse_root_unary_nodes` (backend/main.py, lines 142-225)

A concept node is a dict with `title`, `description`, `question`, `keywords`
and `children`.  The code reads every field with a defaulting `.get` (`or ""`,
`.get(..., "")`, `.get("keywords", [])`, `.get("children", [])`), so an
absent field and an empty one are indistinguishable to it; the embedding
therefore uses plain (possibly empty) fields.  Text fields are `List Char`
so that `strip`/`lower` compute.  The function loops at most
`max_iterations = 10` times while the root has exactly one child, merging the
sole child into the root, then maps the `is_root_level=False` variant (a pure
recursive descent that collapses nothing) over the resulting children.

Python's `list(set(...) | set(...))` for the keyword union produces an
implementation-defined order; the embedding fixes `(parent ++ child).dedup`
and all keyword claims are stated order-insensitively (`toFinset`/`Nodup`).
-/

mutual
inductive ConceptNode where
  | mk (title description question : List Char) (keywords : List (List Char))
      (children : ConceptForest)
inductive ConceptForest where
  | nil
  | cons (c : ConceptNode) (rest : ConceptForest)
end

def ConceptNode.titleOf : ConceptNode → List Char
  | ConceptNode.mk t _ _ _ _ => t

def ConceptNode.descriptionOf : ConceptNode → List Char
  | ConceptNode.mk _ d _ _ _ => d

def ConceptNode.questionOf : ConceptNode → List Char
  | ConceptNode.mk _ _ q _ _ => q

def ConceptNode.keywordsOf : ConceptNode → List (List Char)
  | ConceptNode.mk _ _ _ k _ => k

def ConceptNode.childrenOf : ConceptNode → ConceptForest
  | ConceptNode.mk _ _ _ _ cs => cs

def ConceptForest.length : ConceptForest → Nat
  | ConceptForest.nil => 0
  | ConceptForest.cons _ rest => 1 + rest.length

def ConceptNode.childCount (n : ConceptNode) : Nat :=
  n.childrenOf.length

/-- The generic placeholder titles of the merge step
(`["my document mind map", "document mind map", "mind map", "root"]`). -/
def genericTitles : List (List Char) :=
  ["my document mind map".toList, "document mind map".toList,
   "mind map".toList, "root".toList]

/-- One iteration body of the root-collapsing loop: promote the sole child
`child` into the root.  The child's (stripped) title is adopted when the
root's stripped title is empty or, lowercased, one of the generic
placeholders; the child's description is adopted when nonempty and the root's
is empty or strictly shorter; the child's question is adopted when nonempty
and the root has none; the keywords become the deduplicated union; the
child's children replace the root's. -/
def mergeChild (root child : ConceptNode) : ConceptNode :=
  match root, child with
  | ConceptNode.mk rt rd rq rk _, ConceptNode.mk ct cd cq ck ccs =>
    let rts := pyStrip rt
    let cts := pyStrip ct
    let t2 := if rts = [] ∨ lowerChars rts ∈ genericTitles then cts else rt
    let d2 := if cd ≠ [] ∧ (rd = [] ∨ rd.length < cd.length) then cd else rd
    let q2 := if cq ≠ [] ∧ rq = [] then cq else rq
    let k2 := if rk ≠ [] ∨ ck ≠ [] then (rk ++ ck).dedup else rk
    ConceptNode.mk t2 d2 q2 k2 ccs

/-- The `while iteration < max_iterations` loop: merge while the root has
exactly one child.  The boolean records whether the iteration cap was
reached (`fuel` counts the remaining iterations, starting at 10). -/
def collapseLoop : Nat → ConceptNode → ConceptNode × Bool
  | 0, n => (n, true)
  | Nat.succ fuel, n =>
    match n with
    | ConceptNode.mk _ _ _ _ cs =>
      match cs with
      | ConceptForest.nil => (n, false)
      | ConceptForest.cons c ConceptForest.nil => collapseLoop fuel (mergeChild n c)
      | ConceptForest.cons _ (ConceptForest.cons _ _) => (n, false)

mutual
/-- `collapse_root_unary_nodes(node, is_root_level=False)`: no collapsing
happens below the root; the function just rebuilds each node, recursing into
its children. -/
def collapseSub : ConceptNode → ConceptNode
  | ConceptNode.mk t d q k cs => ConceptNode.mk t d q k (collapseSubF cs)
def collapseSubF : ConceptForest → ConceptForest
  | ConceptForest.nil => ConceptForest.nil
  | ConceptForest.cons c rest => ConceptForest.cons (collapseSub c) (collapseSubF rest)
end

/-- `collapse_root_unary_nodes(node)` (root level): run the bounded
root-collapsing loop, then recursively process the resulting children in the
non-collapsing mode. -/
def collapse_root_unary_nodes (n : ConceptNode) : ConceptNode :=
  match (collapseLoop 10 n).1 with
  | ConceptNode.mk t d q k cs => ConceptNode.mk t d q k (collapseSubF cs)

theorem collapseSub_eq_id (n : ConceptNode) : collapseSub n = n := by
  induction n using ConceptNode.rec (motive_2 := fun f => collapseSubF f = f) with
  | mk t d q k cs ih => rw [collapseSub, ih]
  | nil => rfl
  | cons c rest ih ihr => rw [collapseSubF, ih, ihr]

theorem collapseSubF_eq_id (f : ConceptForest) : collapseSubF f = f := by
  induction f using ConceptForest.rec (motive_1 := fun n => collapseSub n = n) with
  | mk t d q k cs ih => rw [collapseSub, ih]
  | nil => rfl
  | cons c rest ih ihr => rw [collapseSubF, ih, ihr]

theorem collapse_eq_loop (n : ConceptNode) :
    collapse_root_unary_nodes n = (collapseLoop 10 n).1 := by
  rw [collapse_root_unary_nodes]
  cases h : (collapseLoop 10 n).1 with
  | mk t d q k cs => simp [collapseSubF_eq_id]

theorem collapseLoop_conv (fuel : Nat) :
    ∀ n : ConceptNode, (collapseLoop fuel n).2 = true ∨
      (collapseLoop fuel n).1.childCount = 0 ∨ 2 ≤ (collapseLoop fuel n).1.childCount := by
  induction fuel with
  | zero => intro n; left; rfl
  | succ fuel ih =>
    intro n
    cases n with
    | mk t d q k cs =>
      cases cs with
      | nil =>
        right; left
        rfl
      | cons c rest =>
        cases rest with
        | nil =>
          exact ih (mergeChild (ConceptNode.mk t d q k
            (ConceptForest.cons c ConceptForest.nil)) c)
        | cons c2 rest2 =>
          right; right
          show 2 ≤ (ConceptForest.cons c (ConceptForest.cons c2 rest2)).length
          simp [ConceptForest.length]
          omega

theorem collapseLoop_nocap_count (fuel : Nat) :
    ∀ n : ConceptNode, (collapseLoop fuel n).2 = false →
      (collapseLoop fuel n).1.childCount ≠ 1 := by
  intro n h
  rcases collapseLoop_conv fuel n with hc | hc | hc
  · rw [h] at hc; exact absurd hc (by simp)
  · omega
  · omega

theorem collapseLoop_stable (fuel : Nat) (n : ConceptNode) (h : n.childCount ≠ 1) :
    collapseLoop (Nat.succ fuel) n = (n, false) := by
  cases n with
  | mk t d q k cs =>
    cases cs with
    | nil => rw [collapseLoop]
    | cons c rest =>
      cases rest with
      | nil =>
        exact absurd (by simp [ConceptNode.childCount, ConceptNode.childrenOf,
          ConceptForest.length]) h
      | cons c2 rest2 => rw [collapseLoop]

/-- A singleton chain of depth `k` below the root: every node has exactly one
child until the leaf. -/
def singletonChain : Nat → ConceptNode
  | 0 => ConceptNode.mk "x".toList [] [] [] ConceptForest.nil
  | Nat.succ k => ConceptNode.mk "x".toList [] [] []
      (ConceptForest.cons (singletonChain k) ConceptForest.nil)

/-- C4: the root-collapsing loop is bounded by the hard cap of 10 iterations,
the whole function is total and returns the loop's final state unchanged
(the below-root pass rewrites nothing), and on return the root has 0 or ≥ 2
children unless the cap was hit — which a singleton chain of depth 15
(longer than the cap) indeed makes happen, still returning normally. -/
theorem collapse_convergence (n : ConceptNode) :
    collapse_root_unary_nodes n = (collapseLoop 10 n).1 ∧
    ((collapseLoop 10 n).2 = true ∨ (collapseLoop 10 n).1.childCount = 0 ∨
      2 ≤ (collapseLoop 10 n).1.childCount) ∧
    (collapseLoop 10 (singletonChain 15)).2 = true :=
  ⟨collapse_eq_loop n, collapseLoop_conv 10 n, by decide⟩

/-- C3 counterexample: on a singleton chain of depth 12 the first application
stops at the iteration cap with the root still unary, and a second
application collapses further, so `collapse_root_unary_nodes` is not
idempotent on every tree. -/
theorem collapse_idempotent_cex :
    collapse_root_unary_nodes (collapse_root_unary_nodes (singletonChain 12))
      ≠ collapse_root_unary_nodes (singletonChain 12) := by
  intro h
  exact absurd (congrArg ConceptNode.childCount h) (by decide)

/-- C3 (amended): `collapse_root_unary_nodes` is idempotent on every tree for
which the collapsing loop terminates without hitting the 10-iteration cap
(in particular whenever the root's unary chain is shorter than the cap);
a capped run can be collapsed further by a second application. -/
theorem collapse_idempotent (n : ConceptNode)
    (h : (collapseLoop 10 n).2 = false) :
    collapse_root_unary_nodes (collapse_root_unary_nodes n)
      = collapse_root_unary_nodes n := by
  rw [collapse_eq_loop n, collapse_eq_loop ((collapseLoop 10 n).1)]
  have hcount := collapseLoop_nocap_count 10 n h
  rw [show (10 : Nat) = Nat.succ 9 from rfl, collapseLoop_stable 9 _ hcount]

theorem collapse_idempotent_witness :
    (collapseLoop 10 (singletonChain 2)).2 = false ∧
    collapse_root_unary_nodes (collapse_root_unary_nodes (singletonChain 2))
      = collapse_root_unary_nodes (singletonChain 2) :=
  ⟨by decide, collapse_idempotent (singletonChain 2) (by decide)⟩

/-- The concrete scenario tree `ROOT → A → B → C` with `C`'s children
`[X, Y, Z]`, where `A` and `B` have empty titles and descriptions. -/
def scenarioRoot : ConceptNode :=
  ConceptNode.mk "ROOT".toList [] [] []
    (ConceptForest.cons
      (ConceptNode.mk [] [] [] []
        (ConceptForest.cons
          (ConceptNode.mk [] [] [] []
            (ConceptForest.cons
              (ConceptNode.mk "📙 C".toList "C description".toList
                "What is C about?".toList []
                (ConceptForest.cons (ConceptNode.mk "X".toList [] [] [] ConceptForest.nil)
                  (ConceptForest.cons (ConceptNode.mk "Y".toList [] [] [] ConceptForest.nil)
                    (ConceptForest.cons (ConceptNode.mk "Z".toList [] [] [] ConceptForest.nil)
                      ConceptForest.nil))))
              ConceptForest.nil))
          ConceptForest.nil))
      ConceptForest.nil)

/-- C9: each step of the root-chain collapse merges the sole child into the
root exactly as specified: the (stripped) child title is adopted iff the
root's stripped title is empty or case-insensitively one of the generic
placeholders; the child's description is adopted iff the root has none or the
child's is strictly longer; the child's question is adopted iff the root has
none; the keywords become the duplicate-free union of both keyword sets; the
root's children are replaced by the child's.  On the `ROOT → A → B → C`
scenario (C with children `[X, Y, Z]`, A and B empty), three merge steps
leave a root carrying C's metadata with children `[X, Y, Z]`: "ROOT" is a
generic placeholder, so A's (empty) title is adopted, then B's, then C's. -/
theorem collapse_merge_rules :
    (∀ r c : ConceptNode,
      (mergeChild r c).titleOf =
        (if pyStrip r.titleOf = [] ∨ lowerChars (pyStrip r.titleOf) ∈ genericTitles
          then pyStrip c.titleOf else r.titleOf) ∧
      (mergeChild r c).descriptionOf =
        (if r.descriptionOf = [] ∨ r.descriptionOf.length < c.descriptionOf.length
          then c.descriptionOf else r.descriptionOf) ∧
      (mergeChild r c).questionOf =
        (if r.questionOf = [] then c.questionOf else r.questionOf) ∧
      (mergeChild r c).keywordsOf.toFinset
        = r.keywordsOf.toFinset ∪ c.keywordsOf.toFinset ∧
      (mergeChild r c).keywordsOf.Nodup ∧
      (mergeChild r c).childrenOf = c.childrenOf) ∧
    collapse_root_unary_nodes scenarioRoot
      = ConceptNode.mk "📙 C".toList "C description".toList "What is C about?".toList []
          (ConceptForest.cons (ConceptNode.mk "X".toList [] [] [] ConceptForest.nil)
            (ConceptForest.cons (ConceptNode.mk "Y".toList [] [] [] ConceptForest.nil)
              (ConceptForest.cons (ConceptNode.mk "Z".toList [] [] [] ConceptForest.nil)
                ConceptForest.nil))) := by
  constructor
  · intro r c
    cases r with
    | mk rt rd rq rk rcs =>
      cases c with
      | mk ct cd cq ck ccs =>
        simp only [ConceptNode.titleOf, ConceptNode.descriptionOf, ConceptNode.questionOf,
          ConceptNode.keywordsOf, ConceptNode.childrenOf]
        refine ⟨rfl, ?_, ?_, ?_, ?_, rfl⟩
        · show (if cd ≠ [] ∧ (rd = [] ∨ rd.length < cd.length) then cd else rd) = _
          by_cases hcd : cd = []
          · subst hcd
            by_cases hrd : rd = [] <;> simp [hrd]
          · by_cases hrd : rd = [] <;> simp [hcd, hrd]
        · show (if cq ≠ [] ∧ rq = [] then cq else rq) = _
          by_cases hcq : cq = []
          · subst hcq
            by_cases hrq : rq = [] <;> simp [hrq]
          · by_cases hrq : rq = [] <;> simp [hcq, hrq]
        · show (if rk ≠ [] ∨ ck ≠ [] then (rk ++ ck).dedup else rk).toFinset = _
          have hd : ∀ l : List (List Char), l.dedup.toFinset = l.toFinset := fun l =>
            List.toFinset.ext (fun x => by simp)
          by_cases hrk : rk = []
          · subst hrk
            by_cases hck : ck = [] <;> simp [hck, hd, List.toFinset_append]
          · simp [hrk, hd, List.toFinset_append]
        · show (if rk ≠ [] ∨ ck ≠ [] then (rk ++ ck).dedup else rk).Nodup
          by_cases hrk : rk = []
          · subst hrk
            by_cases hck : ck = [] <;> simp [hck, List.nodup_dedup]
          · simp [hrk, List.nodup_dedup]
  · rfl

/-!
## TocTreeBuilder: `ensure_child` / `nodes_to_toc_tree` (backend/parser/parser.py, lines 132-175)

Each markdown block contributes an ancestor path (the parsed `header_path`
metadata), a heading title, an optional heading level, an optional node id
and a body; `nodes_to_toc_tree` walks `ancestors + [heading_title]` from a
synthetic `"ROOT"` node, creating a child keyed by title only when absent,
and appends the payload `{node_id, heading_level, section_text}` to the
terminal node's `sections`.

The Python `ensure_child(parent, title)` mutates `parent` and hands back the
found-or-created child, which the caller keeps walking and finally mutates.
The functional rendering passes that continuation explicitly: `ensure_child
upd title children` applies `upd` (the remaining walk plus the final section
append) to the first child named `title`, creating it at the end of the list
when no child has that title.
-/

structure SectionPayload where
  node_id : Option String
  heading_level : Option Nat
  section_text : String
deriving DecidableEq

inductive RawTocNode where
  | mk (title : String) (children : List RawTocNode) (sections : List SectionPayload)

def RawTocNode.titleOf : RawTocNode → String
  | RawTocNode.mk t _ _ => t

def RawTocNode.childrenOf : RawTocNode → List RawTocNode
  | RawTocNode.mk _ cs _ => cs

structure TocBlock where
  ancestors : List String
  heading_title : String
  heading_level : Option Nat
  node_id : Option String
  body : String

def payloadOf (b : TocBlock) : SectionPayload :=
  ⟨b.node_id, b.heading_level, b.body⟩

/-- `ensure_child`: return (after updating it) the first child whose title
matches, or append a fresh `{"title": title, "children": []}` node. -/
def ensure_child (upd : RawTocNode → RawTocNode) (title : String) :
    List RawTocNode → List RawTocNode
  | [] => [upd (RawTocNode.mk title [] [])]
  | c :: cs =>
    if c.titleOf = title then upd c :: cs else c :: ensure_child upd title cs

/-- Walk/create nodes along `path` and append the payload to the terminal
node's `sections` (the body of `nodes_to_toc_tree`'s per-block work). -/
def addSectionAtPath (p : SectionPayload) : List String → RawTocNode → RawTocNode
  | [], RawTocNode.mk t cs secs => RawTocNode.mk t cs (secs ++ [p])
  | name :: rest, RawTocNode.mk t cs secs =>
      RawTocNode.mk t (ensure_child (addSectionAtPath p rest) name cs) secs

/-- `nodes_to_toc_tree(nodes)`: fold all blocks into the `"ROOT"` node. -/
def nodes_to_toc_tree (blocks : List TocBlock) : RawTocNode :=
  blocks.foldl
    (fun acc b => addSectionAtPath (payloadOf b) (b.ancestors ++ [b.heading_title]) acc)
    (RawTocNode.mk "ROOT" [] [])

/-- Every node's children bear pairwise-distinct titles, recursively. -/
inductive TitlesNodup : RawTocNode → Prop where
  | mk (t : String) (cs : List RawTocNode) (secs : List SectionPayload) :
      (cs.map RawTocNode.titleOf).Nodup → (∀ c ∈ cs, TitlesNodup c) →
      TitlesNodup (RawTocNode.mk t cs secs)

theorem addSectionAtPath_titleOf (p : SectionPayload) :
    ∀ (path : List String) (n : RawTocNode),
      (addSectionAtPath p path n).titleOf = n.titleOf := by
  intro path n
  cases path <;> cases n <;> rfl

theorem ensure_child_mem_titles (upd : RawTocNode → RawTocNode)
    (hupd : ∀ n, (upd n).titleOf = n.titleOf) (name : String) :
    ∀ cs : List RawTocNode, name ∈ cs.map RawTocNode.titleOf →
      (ensure_child upd name cs).map RawTocNode.titleOf = cs.map RawTocNode.titleOf ∧
      (ensure_child upd name cs).length = cs.length := by
  intro cs
  induction cs with
  | nil => intro h; simp at h
  | cons c rest ih =>
    intro h
    by_cases hc : c.titleOf = name
    · rw [ensure_child, if_pos hc]
      simp [hupd]
    · rw [ensure_child, if_neg hc]
      have hmem : name ∈ rest.map RawTocNode.titleOf := by
        rcases List.mem_cons.mp h with h1 | h1
        · exact absurd h1.symm hc
        · exact h1
      have := ih hmem
      simp [this.1, this.2]

theorem ensure_child_new_titles (upd : RawTocNode → RawTocNode)
    (hupd : ∀ n, (upd n).titleOf = n.titleOf) (name : String) :
    ∀ cs : List RawTocNode, name ∉ cs.map RawTocNode.titleOf →
      (ensure_child upd name cs).map RawTocNode.titleOf
        = cs.map RawTocNode.titleOf ++ [name] := by
  intro cs
  induction cs with
  | nil =>
    intro _
    simp only [ensure_child, List.map_nil, List.nil_append, List.map_cons]
    rw [hupd]
    rfl
  | cons c rest ih =>
    intro h
    simp only [List.map_cons, List.mem_cons] at h
    push_neg at h
    rw [ensure_child, if_neg (fun hc => h.1 hc.symm)]
    simp [ih h.2]

theorem ensure_child_mem (upd : RawTocNode → RawTocNode) (name : String) :
    ∀ (cs : List RawTocNode) (x : RawTocNode), x ∈ ensure_child upd name cs →
      (∃ c ∈ cs, x = upd c) ∨ x ∈ cs ∨ x = upd (RawTocNode.mk name [] []) := by
  intro cs
  induction cs with
  | nil =>
    intro x hx
    simp [ensure_child] at hx
    exact Or.inr (Or.inr hx)
  | cons c rest ih =>
    intro x hx
    by_cases hc : c.titleOf = name
    · rw [ensure_child, if_pos hc] at hx
      rcases List.mem_cons.mp hx with h1 | h1
      · exact Or.inl ⟨c, List.mem_cons_self c rest, h1⟩
      · exact Or.inr (Or.inl (List.mem_cons_of_mem c h1))
    · rw [ensure_child, if_neg hc] at hx
      rcases List.mem_cons.mp hx with h1 | h1
      · exact Or.inr (Or.inl (h1 ▸ List.mem_cons_self c rest))
      · rcases ih x h1 with ⟨c2, hc2, hx2⟩ | h2 | h2
        · exact Or.inl ⟨c2, List.mem_cons_of_mem c hc2, hx2⟩
        · exact Or.inr (Or.inl (List.mem_cons_of_mem c h2))
        · exact Or.inr (Or.inr h2)

theorem addSectionAtPath_nodup (p : SectionPayload) :
    ∀ (path : List String) (n : RawTocNode),
      TitlesNodup n → TitlesNodup (addSectionAtPath p path n) := by
  intro path
  induction path with
  | nil =>
    intro n h
    cases n with
    | mk t cs secs =>
      cases h with
      | mk _ _ _ hnd hall => exact TitlesNodup.mk t cs (secs ++ [p]) hnd hall
  | cons name rest ih =>
    intro n h
    cases n with
    | mk t cs secs =>
      cases h with
      | mk _ _ _ hnd hall =>
        have hupd : ∀ m, (addSectionAtPath p rest m).titleOf = m.titleOf :=
          addSectionAtPath_titleOf p rest
        refine TitlesNodup.mk t _ secs ?_ ?_
        · by_cases hmem : name ∈ cs.map RawTocNode.titleOf
          · rw [(ensure_child_mem_titles (addSectionAtPath p rest) hupd name cs hmem).1]
            exact hnd
          · rw [ensure_child_new_titles (addSectionAtPath p rest) hupd name cs hmem]
            simp [List.nodup_append, hnd, hmem]
        · intro x hx
          rcases ensure_child_mem (addSectionAtPath p rest) name cs x hx with
            ⟨c, hc, hx2⟩ | h2 | h2
          · exact hx2 ▸ ih c (hall c hc)
          · exact hall x h2
          · refine h2 ▸ ih (RawTocNode.mk name [] []) ?_
            exact TitlesNodup.mk name [] [] (by simp) (by simp)

theorem nodes_to_toc_tree_nodup_aux :
    ∀ (blocks : List TocBlock) (acc : RawTocNode), TitlesNodup acc →
      TitlesNodup (blocks.foldl
        (fun acc b => addSectionAtPath (payloadOf b) (b.ancestors ++ [b.heading_title]) acc)
        acc) := by
  intro blocks
  induction blocks with
  | nil => intro acc h; exact h
  | cons b rest ih =>
    intro acc h
    exact ih _ (addSectionAtPath_nodup (payloadOf b) (b.ancestors ++ [b.heading_title]) acc h)

/-- C7: the builder keys children by title within each parent.  Walking a
path updates the first child bearing the walked title and creates a new child
only when no child of that parent has that title (so re-walking the same path
finds the same node: the sibling title list — and hence the child set — is
unchanged, no duplicate is created); consequently in every built tree each
node's children have pairwise-distinct titles; and building twice from the
same blocks yields the same tree (the builder is a pure function of the
block sequence). -/
theorem builder_keyed_by_title :
    (∀ blocks : List TocBlock, TitlesNodup (nodes_to_toc_tree blocks)) ∧
    (∀ (p : SectionPayload) (rest : List String) (name : String) (cs : List RawTocNode),
      name ∈ cs.map RawTocNode.titleOf →
      (ensure_child (addSectionAtPath p rest) name cs).map RawTocNode.titleOf
          = cs.map RawTocNode.titleOf ∧
        (ensure_child (addSectionAtPath p rest) name cs).length = cs.length) ∧
    (∀ (p : SectionPayload) (rest : List String) (name : String) (cs : List RawTocNode),
      name ∉ cs.map RawTocNode.titleOf →
      (ensure_child (addSectionAtPath p rest) name cs).map RawTocNode.titleOf
          = cs.map RawTocNode.titleOf ++ [name]) ∧
    (∀ blocks : List TocBlock, nodes_to_toc_tree blocks = nodes_to_toc_tree blocks) := by
  refine ⟨?_, ?_, ?_, fun _ => rfl⟩
  · intro blocks
    exact nodes_to_toc_tree_nodup_aux blocks _
      (TitlesNodup.mk "ROOT" [] [] (by simp) (by simp))
  · intro p rest name cs hmem
    exact ensure_child_mem_titles (addSectionAtPath p rest)
      (addSectionAtPath_titleOf p rest) name cs hmem
  · intro p rest name cs hmem
    exact ensure_child_new_titles (addSectionAtPath p rest)
      (addSectionAtPath_titleOf p rest) name cs hmem

theorem builder_keyed_by_title_witness :
    TitlesNodup (nodes_to_toc_tree [⟨["H1"], "H2", some 2, none, "body"⟩]) ∧
    "A" ∈ ([RawTocNode.mk "A" [] [], RawTocNode.mk "B" [] []].map RawTocNode.titleOf) ∧
    (ensure_child (addSectionAtPath ⟨none, none, "x"⟩ []) "A"
        [RawTocNode.mk "A" [] [], RawTocNode.mk "B" [] []]).map RawTocNode.titleOf
      = ["A", "B"] :=
  ⟨builder_keyed_by_title.1 _, by decide,
    (builder_keyed_by_title.2.1 ⟨none, none, "x"⟩ [] "A"
      [RawTocNode.mk "A" [] [], RawTocNode.mk "B" [] []] (by decide)).1⟩

/-!
## StructuredTransformer retry policy (backend/llm/llm_transform.py, lines 195-242)

In the single-shot path of `transform_toc_tree_to_api_format`, the LLM call
is wrapped in a `try`.  On an exception the code lowercases `str(e)`,
takes `type(e).__name__`, and retries exactly once — with the hard-coded
larger-context model `"gpt-4.1-nano"`, the same `messages` and the same
schema — iff the message contains one of the fixed substrings, or the type
name contains `"ratelimiterror"` and the message contains `"token"`.  Any
other exception is re-raised.  The LLM call itself is a black box, modelled
as a function from a model name and the messages to a result or a failure
carrying the stringified message and the exception type name.
-/

structure LlmFailure where
  msg : List Char
  etype : List Char
deriving DecidableEq

/-- `needle` occurs at the start of the haystack. -/
def leadsWith : List Char → List Char → Bool
  | [], _ => true
  | _ :: _, [] => false
  | a :: xs, b :: ys => a == b && leadsWith xs ys

/-- Python's substring test `needle in s`. -/
def hasSub (needle : List Char) : List Char → Bool
  | [] => needle.isEmpty
  | b :: rest => leadsWith needle (b :: rest) || hasSub needle rest

/-- The `is_token_error` test: match the fixed substrings against the
lowercased message, or a rate-limit exception type combined with `"token"`
in the message. -/
def isTokenError (e : LlmFailure) : Bool :=
  let m := lowerChars e.msg
  hasSub "token".toList m ||
  hasSub "context".toList m ||
  hasSub "length".toList m ||
  hasSub "maximum context".toList m ||
  hasSub "request too large".toList m ||
  hasSub "tokens per min".toList m ||
  hasSub "tpm".toList m ||
  (hasSub "ratelimiterror".toList (lowerChars e.etype) && hasSub "token".toList m)

/-- The single-shot `try/except` of `transform_toc_tree_to_api_format`:
call the primary model once; on a token-class failure, call `"gpt-4.1-nano"`
once with the same messages (and schema — the call function is the same);
on any other failure, re-raise. -/
def transform_single_shot {M R : Type} (call : String → M → Except LlmFailure R)
    (primary : String) (msgs : M) : Except LlmFailure R :=
  match call primary msgs with
  | Except.ok r => Except.ok r
  | Except.error e =>
    if isTokenError e then call "gpt-4.1-nano" msgs else Except.error e

/-- C8: a failed single-shot LLM call is retried exactly once — against the
larger-context `"gpt-4.1-nano"` with the same messages and schema — iff the
failure is token-classified: the lowercased message contains one of
`"token"`, `"context"`, `"length"`, `"maximum context"`,
`"request too large"`, `"tokens per min"`, `"tpm"`, or the exception type is
a rate-limit error and the message contains `"token"`.  Every other failure
propagates unchanged, and a success is returned as-is with no retry. -/
theorem retry_policy :
    (∀ (M R : Type) (call : String → M → Except LlmFailure R) (primary : String) (msgs : M),
      (∀ r, call primary msgs = Except.ok r →
        transform_single_shot call primary msgs = Except.ok r) ∧
      (∀ e, call primary msgs = Except.error e → isTokenError e = true →
        transform_single_shot call primary msgs = call "gpt-4.1-nano" msgs) ∧
      (∀ e, call primary msgs = Except.error e → isTokenError e = false →
        transform_single_shot call primary msgs = Except.error e)) ∧
    (∀ e : LlmFailure, isTokenError e = true ↔
      ((["token", "context", "length", "maximum context", "request too large",
          "tokens per min", "tpm"].map String.toList).any
          (fun pat => hasSub pat (lowerChars e.msg)) = true ∨
        (hasSub "ratelimiterror".toList (lowerChars e.etype) = true ∧
          hasSub "token".toList (lowerChars e.msg) = true))) := by
  constructor
  · intro M R call primary msgs
    refine ⟨?_, ?_, ?_⟩
    · intro r h
      rw [transform_single_shot, h]
    · intro e h he
      rw [transform_single_shot, h]
      simp [he]
    · intro e h he
      rw [transform_single_shot, h]
      simp [he]
  · intro e
    rw [isTokenError]
    simp only [List.map_cons, List.map_nil, List.any_cons, List.any_nil,
      Bool.or_eq_true, Bool.and_eq_true, Bool.or_false]
    tauto

/-- A context-length failure (token class) and an unrelated network failure. -/
def tokenFailure : LlmFailure :=
  ⟨"This model's maximum CONTEXT LENGTH is 8192 tokens".toList,
   "BadRequestError".toList⟩

def otherFailure : LlmFailure :=
  ⟨"connection reset by peer".toList, "APIConnectionError".toList⟩

theorem retry_policy_witness :
    ((fun (model : String) (_ : Nat) =>
        if model = "m0" then Except.error tokenFailure else Except.ok 7) "m0" 0
      = Except.error tokenFailure) ∧
    isTokenError tokenFailure = true ∧
    transform_single_shot (fun (model : String) (_ : Nat) =>
        if model = "m0" then Except.error tokenFailure else Except.ok 7) "m0" 0
      = (fun (model : String) (_ : Nat) =>
          if model = "m0" then Except.error tokenFailure else Except.ok 7) "gpt-4.1-nano" 0 ∧
    isTokenError otherFailure = false ∧
    transform_single_shot
        (fun (_ : String) (_ : Nat) => (Except.error otherFailure : Except LlmFailure Nat))
        "m0" 0
      = Except.error otherFailure :=
  ⟨rfl, by decide,
   (retry_policy.1 Nat Nat (fun (model : String) (_ : Nat) =>
      if model = "m0" then Except.error tokenFailure else Except.ok 7) "m0" 0).2.1
      tokenFailure rfl (by decide),
   by decide,
   (retry_policy.1 Nat Nat
      (fun (_ : String) (_ : Nat) => (Except.error otherFailure : Except LlmFailure Nat))
      "m0" 0).2.2 otherFailure rfl (by decide)⟩
